import Mathlib

/-!
Verification of the serde-mux crate (src/lib.rs): the fingerprinting value
types with their hex conversions, and the protobuf binding with its error
taxonomy.  Byte buffers (Rust `Box<[u8]>` / `Vec<u8>`) are modelled as
`List (Fin 256)`, Rust strings as `List Char`.
-/

namespace SerdeMux

/-- Modelled from the spec: the external hex codec (spec section 6), whose
`encode` lower-case hex-encodes a byte buffer (two characters per byte) and
whose `decode` fails on odd-length or non-hex-digit input.  This mirrors the
`hex` crate used by `src/lib.rs`.  A nibble value below 10 maps to a digit
character, 10 through 15 map to the lower-case letters a through f. -/
def hexDigitLower (n : Nat) : Char :=
  if n < 10 then Char.ofNat (48 + n) else Char.ofNat (87 + n)

/-- `hex::encode`: each byte becomes its high nibble then its low nibble. -/
def hexEncode : List (Fin 256) → List Char
  | [] => []
  | b :: rest => hexDigitLower (b.val / 16) :: hexDigitLower (b.val % 16) :: hexEncode rest

/-- The error type of the hex codec itself (`hex::FromHexError`). -/
inductive FromHexError where
  | InvalidHexCharacter (c : Char) (index : Nat)
  | OddLength
  | InvalidStringLength
deriving DecidableEq, Repr

/-- The value of a hex digit character: `0`-`9`, `a`-`f`, `A`-`F`;
`none` on any other character. -/
def hexCharVal (c : Char) : Option Nat :=
  if 48 ≤ c.toNat ∧ c.toNat ≤ 57 then some (c.toNat - 48)
  else if 97 ≤ c.toNat ∧ c.toNat ≤ 102 then some (c.toNat - 87)
  else if 65 ≤ c.toNat ∧ c.toNat ≤ 70 then some (c.toNat - 55)
  else none

/-- Pair-wise decoding loop of `hex::decode` (index tracked for the
`InvalidHexCharacter` report).  The singleton case cannot be reached through
`hexDecode`, which rejects odd-length input first. -/
def hexDecodeAux : List Char → Nat → Except FromHexError (List (Fin 256))
  | [], _ => .ok []
  | [_], _ => .error .OddLength
  | c1 :: c2 :: rest, i =>
    match hexCharVal c1 with
    | none => .error (.InvalidHexCharacter c1 i)
    | some hi =>
      match hexCharVal c2 with
      | none => .error (.InvalidHexCharacter c2 (i + 1))
      | some lo =>
        match hexDecodeAux rest (i + 2) with
        | .error e => .error e
        | .ok bs => .ok (⟨(hi * 16 + lo) % 256, Nat.mod_lt _ (by omega)⟩ :: bs)

/-- `hex::decode`: odd-length input is rejected up front, otherwise the
character pairs are decoded left to right. -/
def hexDecode (s : List Char) : Except FromHexError (List (Fin 256)) :=
  if s.length % 2 = 1 then .error .OddLength else hexDecodeAux s 0

/-- `FingerprintableBytes<Source>` (src/lib.rs line 69): an owned byte buffer
tagged with a phantom `Source` type parameter that has no runtime field. -/
structure FingerprintableBytes (Source : Type) where
  bytes : List (Fin 256)
deriving DecidableEq, Repr

/-- `HexFingerprint<Source>` (src/lib.rs line 72): an owned string tagged the
same way. -/
structure HexFingerprint (Source : Type) where
  hex : List Char
deriving DecidableEq, Repr

/-- `impl From<String> for HexFingerprint` (src/lib.rs lines 74-76): wraps the
string, no validation. -/
def HexFingerprint.fromString {Source : Type} (value : List Char) : HexFingerprint Source :=
  ⟨value⟩

/-- `impl From<HexFingerprint<Source>> for String` (src/lib.rs lines 77-79):
returns the wrapped string. -/
def HexFingerprint.intoString {Source : Type} (value : HexFingerprint Source) : List Char :=
  value.hex

namespace FingerprintableBytes

/-- `FingerprintableBytes::new` (src/lib.rs line 85). -/
def new {Source : Type} (bytes : List (Fin 256)) : FingerprintableBytes Source :=
  ⟨bytes⟩

/-- `FingerprintableBytes::from_hex_string` (src/lib.rs lines 87-90): decodes
with the hex codec, propagating its error through the `?` operator. -/
def from_hex_string {Source : Type} (hex_string : List Char) :
    Except FromHexError (FingerprintableBytes Source) :=
  match hexDecode hex_string with
  | .error e => .error e
  | .ok decoded => .ok (new decoded)

/-- `FingerprintableBytes::into_hex_string` (src/lib.rs lines 92-94):
`HexFingerprint::from(hex::encode(&self.0))`. -/
def into_hex_string {Source : Type} (self : FingerprintableBytes Source) :
    HexFingerprint Source :=
  HexFingerprint.fromString (hexEncode self.bytes)

end FingerprintableBytes

/-! ### Hex round-trip lemmas -/

lemma hexCharVal_hexDigitLower (n : Nat) (hn : n < 16) :
    hexCharVal (hexDigitLower n) = some n := by
  interval_cases n <;> decide

lemma hexEncode_length (l : List (Fin 256)) : (hexEncode l).length = 2 * l.length := by
  induction l with
  | nil => rfl
  | cons b rest ih => simp [hexEncode, ih]; omega

lemma hexDecodeAux_hexEncode (l : List (Fin 256)) (i : Nat) :
    hexDecodeAux (hexEncode l) i = .ok l := by
  induction l generalizing i with
  | nil => rfl
  | cons b rest ih =>
      have hhi : b.val / 16 < 16 := by omega
      have hlo : b.val % 16 < 16 := Nat.mod_lt _ (by omega)
      simp only [hexEncode, hexDecodeAux, hexCharVal_hexDigitLower _ hhi,
        hexCharVal_hexDigitLower _ hlo, ih]
      congr 1
      have hb : b.val / 16 * 16 + b.val % 16 = b.val := by omega
      have hb2 : b.val % 256 = b.val := Nat.mod_eq_of_lt b.isLt
      congr 1
      apply Fin.ext
      simp [hb, hb2]

lemma hexDecode_hexEncode (l : List (Fin 256)) : hexDecode (hexEncode l) = .ok l := by
  unfold hexDecode
  rw [hexEncode_length]
  simp [Nat.mul_mod_right, hexDecodeAux_hexEncode]

/-- A string is valid hex when its length is even and every character is a
hex digit; this is exactly the domain on which the decode of the hex codec
succeeds. -/
def isValidHex (s : List Char) : Prop :=
  s.length % 2 = 0 ∧ ∀ c ∈ s, (hexCharVal c).isSome

instance : DecidablePred isValidHex := fun s => by
  unfold isValidHex; infer_instance

lemma hexDecodeAux_ok_valid : ∀ (s : List Char) (i : Nat) (bs : List (Fin 256)),
    hexDecodeAux s i = .ok bs →
    s.length % 2 = 0 ∧ ∀ c ∈ s, (hexCharVal c).isSome
  | [], _, _, _ => by simp
  | [c], i, bs, h => by simp [hexDecodeAux] at h
  | c1 :: c2 :: rest, i, bs, h => by
      rcases h1 : hexCharVal c1 with _ | hi
      · simp only [hexDecodeAux, h1] at h
        exact Except.noConfusion h
      · rcases h2 : hexCharVal c2 with _ | lo
        · simp only [hexDecodeAux, h1, h2] at h
          exact Except.noConfusion h
        · rcases h3 : hexDecodeAux rest (i + 2) with e | bs2
          · simp only [hexDecodeAux, h1, h2, h3] at h
            exact Except.noConfusion h
          · obtain ⟨hev, hall⟩ := hexDecodeAux_ok_valid rest (i + 2) bs2 h3
            refine ⟨by simp; omega, ?_⟩
            intro c hc
            simp only [List.mem_cons] at hc
            rcases hc with rfl | rfl | hc
            · simp [h1]
            · simp [h2]
            · exact hall c hc

lemma hexDecodeAux_valid_ok : ∀ (s : List Char) (i : Nat),
    s.length % 2 = 0 → (∀ c ∈ s, (hexCharVal c).isSome) →
    ∃ bs, hexDecodeAux s i = .ok bs
  | [], _, _, _ => ⟨[], rfl⟩
  | [c], i, hev, _ => by simp at hev
  | c1 :: c2 :: rest, i, hev, hall => by
      obtain ⟨hi, h1⟩ := Option.isSome_iff_exists.mp (hall c1 (by simp))
      obtain ⟨lo, h2⟩ := Option.isSome_iff_exists.mp (hall c2 (by simp))
      have hev2 : rest.length % 2 = 0 := by simp at hev; omega
      obtain ⟨bs, h3⟩ := hexDecodeAux_valid_ok rest (i + 2) hev2
        (fun c hc => hall c (by simp [hc]))
      refine ⟨⟨(hi * 16 + lo) % 256, Nat.mod_lt _ (by omega)⟩ :: bs, ?_⟩
      simp only [hexDecodeAux, h1, h2, h3]

/-- C4: `from_hex_string` succeeds with the decoded bytes exactly on valid
hex strings, and on any invalid string (odd length or a non-hex-digit
character) it returns `Err` carrying the error value of the hex codec itself
propagated unchanged. -/
theorem from_hex_string_error_propagation {S : Type} (s : List Char) :
    (isValidHex s → ∃ bs, hexDecode s = .ok bs ∧
      (FingerprintableBytes.from_hex_string s :
        Except FromHexError (FingerprintableBytes S)) =
          .ok (FingerprintableBytes.new bs)) ∧
    (¬ isValidHex s → ∃ e, hexDecode s = .error e ∧
      (FingerprintableBytes.from_hex_string s :
        Except FromHexError (FingerprintableBytes S)) = .error e) := by
  constructor
  · rintro ⟨hev, hall⟩
    obtain ⟨bs, hbs⟩ := hexDecodeAux_valid_ok s 0 hev hall
    have hdec : hexDecode s = .ok bs := by
      unfold hexDecode
      rw [if_neg (by omega)]
      exact hbs
    exact ⟨bs, hdec, by unfold FingerprintableBytes.from_hex_string; rw [hdec]⟩
  · intro hinv
    by_cases hodd : s.length % 2 = 1
    · have hdec : hexDecode s = .error .OddLength := by
        unfold hexDecode
        rw [if_pos hodd]
      exact ⟨.OddLength, hdec,
        by unfold FingerprintableBytes.from_hex_string; rw [hdec]⟩
    · have hev : s.length % 2 = 0 := by omega
      rcases h3 : hexDecodeAux s 0 with e | bs
      · have hdec : hexDecode s = .error e := by
          unfold hexDecode
          rw [if_neg (by omega)]
          exact h3
        exact ⟨e, hdec,
          by unfold FingerprintableBytes.from_hex_string; rw [hdec]⟩
      · exact absurd ⟨hev, (hexDecodeAux_ok_valid s 0 bs h3).2⟩ hinv

/-- Closed instance of the C4 theorem at the odd-length string "a". -/
theorem from_hex_string_error_propagation_witness :
    ¬ isValidHex [Char.ofNat 97] ∧
      ∃ e, hexDecode [Char.ofNat 97] = .error e ∧
        (FingerprintableBytes.from_hex_string [Char.ofNat 97] :
          Except FromHexError (FingerprintableBytes Unit)) = .error e :=
  ⟨by decide, (from_hex_string_error_propagation [Char.ofNat 97]).2 (by decide)⟩

/-- The sixteen lower-case hex digit characters. -/
def lowerHexDigits : List Char :=
  [Char.ofNat 48, Char.ofNat 49, Char.ofNat 50, Char.ofNat 51, Char.ofNat 52,
   Char.ofNat 53, Char.ofNat 54, Char.ofNat 55, Char.ofNat 56, Char.ofNat 57,
   Char.ofNat 97, Char.ofNat 98, Char.ofNat 99, Char.ofNat 100, Char.ofNat 101,
   Char.ofNat 102]

lemma hexDigitLower_mem (n : Nat) (hn : n < 16) : hexDigitLower n ∈ lowerHexDigits := by
  interval_cases n <;> decide

lemma hexEncode_mem (l : List (Fin 256)) : ∀ c ∈ hexEncode l, c ∈ lowerHexDigits := by
  induction l with
  | nil => simp [hexEncode]
  | cons b rest ih =>
      intro c hc
      simp only [hexEncode, List.mem_cons] at hc
      rcases hc with rfl | rfl | hc
      · exact hexDigitLower_mem _ (by omega)
      · exact hexDigitLower_mem _ (Nat.mod_lt _ (by omega))
      · exact ih c hc

/-- C5: `into_hex_string` is total (it is a plain function on every byte
buffer) and its result wraps exactly the lower-case hex encoding of the
bytes: two characters per byte, each a lower-case hex digit. -/
theorem into_hex_string_lower_hex {S : Type} (B : List (Fin 256)) :
    ((FingerprintableBytes.new B : FingerprintableBytes S).into_hex_string).hex
        = hexEncode B ∧
    ((FingerprintableBytes.new B : FingerprintableBytes S).into_hex_string).hex.length
        = 2 * B.length ∧
    ∀ c ∈ ((FingerprintableBytes.new B : FingerprintableBytes S).into_hex_string).hex,
      c ∈ lowerHexDigits := by
  refine ⟨rfl, ?_, ?_⟩
  · exact hexEncode_length B
  · exact hexEncode_mem B

/-- C2: for every byte buffer B, decoding the hex string produced by
`FingerprintableBytes::new(B).into_hex_string()` with `from_hex_string`
returns `Ok` of a value equal to `FingerprintableBytes::new(B)`: the hex
encode/decode round trip over `FingerprintableBytes` is lossless. -/
theorem hex_round_trip {Source : Type} (B : List (Fin 256)) :
    FingerprintableBytes.from_hex_string
        (HexFingerprint.intoString
          (FingerprintableBytes.into_hex_string
            (FingerprintableBytes.new B : FingerprintableBytes Source))) =
      .ok (FingerprintableBytes.new B : FingerprintableBytes Source) := by
  unfold FingerprintableBytes.from_hex_string FingerprintableBytes.into_hex_string
    HexFingerprint.intoString HexFingerprint.fromString FingerprintableBytes.new
  simp [hexDecode_hexEncode]

/-! ### Equality, ordering and hashing of FingerprintableBytes (C8) -/

/-- Rust `Ord` on `u8` (`Ord::cmp` for integers). -/
def byteCompare (a b : Fin 256) : Ordering :=
  if a.val < b.val then .lt else if a.val = b.val then .eq else .gt

/-- Rust derived `Ord` on `[u8]` slices: element-wise comparison, then by
length. -/
def bytesCompare : List (Fin 256) → List (Fin 256) → Ordering
  | [], [] => .eq
  | [], _ :: _ => .lt
  | _ :: _, [] => .gt
  | a :: xs, b :: ys =>
    match byteCompare a b with
    | .eq => bytesCompare xs ys
    | o => o

/-- The `#[derive(Ord)]` comparison of `FingerprintableBytes` (src/lib.rs
line 68): the byte field is compared first, then the `PhantomData` field,
whose comparison is always `Equal`. -/
def fbCompare {S : Type} (a b : FingerprintableBytes S) : Ordering :=
  (bytesCompare a.bytes b.bytes).then Ordering.eq

/-- The `#[derive(Hash)]` of `FingerprintableBytes`: only the byte field
feeds the hasher (`PhantomData` hashes nothing); `hashBytes` stands for the
action of the hasher on the byte buffer. -/
def fbHash {S : Type} (hashBytes : List (Fin 256) → Nat)
    (a : FingerprintableBytes S) : Nat :=
  hashBytes a.bytes

lemma bytesCompare_eq_iff : ∀ (xs ys : List (Fin 256)),
    bytesCompare xs ys = .eq ↔ xs = ys
  | [], [] => by simp [bytesCompare]
  | [], _ :: _ => by simp [bytesCompare]
  | _ :: _, [] => by simp [bytesCompare]
  | a :: xs, b :: ys => by
      have ih := bytesCompare_eq_iff xs ys
      unfold bytesCompare byteCompare
      rcases Nat.lt_trichotomy a.val b.val with hab | hab | hab
      · rw [if_pos hab]
        constructor
        · intro h
          exact Ordering.noConfusion h
        · intro h
          injection h with h1 h2
          rw [h1] at hab
          exact absurd hab (lt_irrefl _)
      · have hab2 : a = b := Fin.ext hab
        subst hab2
        rw [if_neg (lt_irrefl _), if_pos rfl]
        show bytesCompare xs ys = .eq ↔ _
        rw [ih]
        simp
      · rw [if_neg (by omega), if_neg (by omega)]
        constructor
        · intro h
          exact Ordering.noConfusion h
        · intro h
          injection h with h1 h2
          rw [h1] at hab
          exact absurd hab (lt_irrefl _)

lemma bytesCompare_lt_iff_lex : ∀ (xs ys : List (Fin 256)),
    bytesCompare xs ys = .lt ↔ List.Lex (fun x y : Fin 256 => x < y) xs ys
  | [], [] => ⟨fun h => Ordering.noConfusion h,
      fun h => absurd h (List.Lex.not_nil_right _ _)⟩
  | [], _ :: _ => ⟨fun _ => List.Lex.nil, fun _ => rfl⟩
  | _ :: _, [] => ⟨fun h => Ordering.noConfusion h,
      fun h => absurd h (List.Lex.not_nil_right _ _)⟩
  | a :: xs, b :: ys => by
      have ih := bytesCompare_lt_iff_lex xs ys
      unfold bytesCompare byteCompare
      rcases Nat.lt_trichotomy a.val b.val with hab | hab | hab
      · rw [if_pos hab]
        constructor
        · intro _
          exact List.Lex.rel hab
        · intro _
          rfl
      · have hab2 : a = b := Fin.ext hab
        subst hab2
        rw [if_neg (lt_irrefl _), if_pos rfl]
        show bytesCompare xs ys = .lt ↔ _
        rw [ih]
        constructor
        · exact List.Lex.cons
        · intro h
          cases h with
          | cons h2 => exact h2
          | rel h2 => exact absurd h2 (lt_irrefl a)
      · rw [if_neg (by omega), if_neg (by omega)]
        constructor
        · intro h
          exact Ordering.noConfusion h
        · intro h
          cases h with
          | cons h2 => exact absurd hab (lt_irrefl _)
          | rel h2 =>
              rw [Fin.lt_def] at h2
              exact absurd h2 (by omega)

lemma fbCompare_eq_bytesCompare {S : Type} (a b : FingerprintableBytes S) :
    fbCompare a b = bytesCompare a.bytes b.bytes := by
  cases h : bytesCompare a.bytes b.bytes <;>
    simp [fbCompare, h, Ordering.then]

/-- C8: equality of `FingerprintableBytes` values with the same `Source` tag
is exactly equality of the underlying byte buffers, the derived hash is
determined by the bytes alone, and the derived comparison is exactly the
lexicographic ordering of the byte buffers; the phantom tag contributes
nothing. -/
theorem fingerprintable_bytes_eq_ord {S : Type} (a b : FingerprintableBytes S) :
    (a = b ↔ a.bytes = b.bytes) ∧
    (∀ hashBytes : List (Fin 256) → Nat,
      a.bytes = b.bytes → fbHash hashBytes a = fbHash hashBytes b) ∧
    (fbCompare a b = bytesCompare a.bytes b.bytes) ∧
    (fbCompare a b = .eq ↔ a = b) ∧
    (fbCompare a b = .lt ↔ List.Lex (fun x y : Fin 256 => x < y) a.bytes b.bytes) := by
  have heq : a = b ↔ a.bytes = b.bytes := by
    constructor
    · intro h
      rw [h]
    · intro h
      cases a
      cases b
      simp_all
  refine ⟨heq, ?_, fbCompare_eq_bytesCompare a b, ?_, ?_⟩
  · intro hashBytes h
    simp [fbHash, h]
  · rw [fbCompare_eq_bytesCompare, bytesCompare_eq_iff, heq]
  · rw [fbCompare_eq_bytesCompare, bytesCompare_lt_iff_lex]

/-- Closed instance of the C8 theorem: the hash conjunct applied at a
concrete one-byte buffer. -/
theorem fingerprintable_bytes_eq_ord_witness :
    fbHash List.length
        (FingerprintableBytes.new [(2 : Fin 256)] : FingerprintableBytes Unit) =
      fbHash List.length
        (FingerprintableBytes.new [(2 : Fin 256)] : FingerprintableBytes Unit) :=
  (fingerprintable_bytes_eq_ord _ _).2.1 List.length rfl

/-! ### Key-fingerprint binding (C6) -/

/-- `KeyFingerprint<Source>` (src/lib.rs line 124): wraps one `Source`
value. -/
structure KeyFingerprint (Source : Type) where
  source : Source

/-- `KeyFingerprint::new` (src/lib.rs line 127). -/
def KeyFingerprint.new {S : Type} (source : S) : KeyFingerprint S :=
  ⟨source⟩

/-- `Serializer::serialize` for `KeyFingerprint` (src/lib.rs lines 137-144):
the `Into<FingerprintableBytes<Source>>` conversion of the `Fingerprintable` bound
is the parameter `intoFingerprint`; the wrapped value is converted to its
fingerprint bytes and then to a hex string.  Total: it returns a
`HexFingerprint` directly, with no `Result`. -/
def KeyFingerprint.serialize {S : Type}
    (intoFingerprint : S → FingerprintableBytes S)
    (self : KeyFingerprint S) : HexFingerprint S :=
  (intoFingerprint self.source).into_hex_string

/-- C6: `KeyFingerprint::new(v).serialize()` is total (a plain function with
no error type) and equals the `Fingerprintable` conversion into
`FingerprintableBytes` followed by `into_hex_string`, i.e. it wraps the hex
encoding of the fingerprint bytes of `v`. -/
theorem key_fingerprint_serialize_eq {S : Type}
    (intoFingerprint : S → FingerprintableBytes S) (v : S) :
    (KeyFingerprint.new v).serialize intoFingerprint =
        (intoFingerprint v).into_hex_string ∧
    (KeyFingerprint.new v).serialize intoFingerprint =
        HexFingerprint.fromString (hexEncode (intoFingerprint v).bytes) :=
  ⟨rfl, rfl⟩

/-- C9: `HexFingerprint::from(s)` succeeds on every string with no
validation (it is a total function), and `String::from` of the result
returns `s` unchanged, whether or not `s` is valid hex. -/
theorem hex_fingerprint_string_round_trip {S : Type} (s : List Char) :
    HexFingerprint.intoString (HexFingerprint.fromString s : HexFingerprint S) = s :=
  rfl

/-! ### Protobuf binding (feature "protobuf", src/lib.rs lines 147-223) -/

/-- `prost::DecodeError`: the opaque decode error value of the external codec. -/
structure DecodeError where
  message : List Char
deriving DecidableEq, Repr

/-- `prost::EncodeError`: the opaque encode error value of the external codec. -/
structure EncodeError where
  message : List Char
deriving DecidableEq, Repr

/-- `ProtobufCodingFailure` (src/lib.rs lines 208-222): the closed error
taxonomy of the protobuf binding. -/
inductive ProtobufCodingFailure where
  | OptionalFieldAbsent (field : List Char) (ty : List Char)
  | FieldCompositionWasIncorrect (state : List Char) (ty : List Char)
  | SliceLength (expected : Nat) (ty : List Char)
  | MapStringCodingFailed (descr : List Char) (ty : List Char)
  | Encode (e : EncodeError)
  | Decode (e : DecodeError)
deriving DecidableEq, Repr

/-- The `#[from]` conversion `From<prost::DecodeError> for
ProtobufCodingFailure` (src/lib.rs line 221): wraps into the `Decode`
variant. -/
def ProtobufCodingFailure.fromDecodeError (e : DecodeError) : ProtobufCodingFailure :=
  .Decode e

/-- Modelled from the spec: the external prost codec contract (spec section
6): `encode_to_vec` is total, `decode` fails on truncated/malformed wire
bytes, `default` exists, and decoding the bytes of an encoded message
recovers it (the conventional protobuf contract assumed in spec section
4.4). -/
structure ProstMessage (Proto : Type) where
  encode_to_vec : Proto → List (Fin 256)
  decode : List (Fin 256) → Except DecodeError Proto
  dfault : Proto
  decode_encode : ∀ m, decode (encode_to_vec m) = .ok m

/-- The caller-supplied conversions required by the bounds of the protobuf binding (src/lib.rs lines 178-198): `From<Proto::Source> for Proto`,
`TryInto<Proto::Source, Error=E> for Proto`, and `E:
From<prost::DecodeError>`. -/
structure ProtoConv (Source Proto E : Type) where
  fromSource : Source → Proto
  tryInto : Proto → Except E Source
  fromDecodeError : DecodeError → E

namespace Protobuf

/-- `Serializer::serialize` for `Protobuf` (src/lib.rs lines 181-184):
convert the wrapped `Source` into `Proto`, then `encode_to_vec`; total and
returns the bytes directly, with no `Result`. -/
def serialize {Source Proto E : Type} (codec : ProstMessage Proto)
    (conv : ProtoConv Source Proto E) (source : Source) : List (Fin 256) :=
  codec.encode_to_vec (conv.fromSource source)

/-- `Deserializer::deserialize` for `Protobuf` (src/lib.rs lines 194-197):
`Proto::decode(data)?` — the `?` operator wraps a decode failure through
`E: From<prost::DecodeError>` — then `proto_message.try_into()`. -/
def deserialize {Source Proto E : Type} (codec : ProstMessage Proto)
    (conv : ProtoConv Source Proto E) (data : List (Fin 256)) : Except E Source :=
  match codec.decode data with
  | .error e => .error (conv.fromDecodeError e)
  | .ok proto_message => conv.tryInto proto_message

end Protobuf

/-- C1: for every `Source` value V, if the Proto<->Source conversions
round-trip (`TryInto` after `From` returns `Ok(V)`), then deserializing the
bytes produced by `Protobuf::new(V).serialize()` returns `Ok(V)`. -/
theorem protobuf_round_trip {Source Proto E : Type} (codec : ProstMessage Proto)
    (conv : ProtoConv Source Proto E) (V : Source)
    (hconv : conv.tryInto (conv.fromSource V) = .ok V) :
    Protobuf.deserialize codec conv (Protobuf.serialize codec conv V) = .ok V := by
  unfold Protobuf.deserialize Protobuf.serialize
  rw [codec.decode_encode]
  exact hconv

/-- A concrete instantiation of the prost codec contract used by witnesses:
messages are single bytes, encoded as a one-byte buffer; any other buffer
fails to decode. -/
def idCodec : ProstMessage (Fin 256) where
  encode_to_vec m := [m]
  decode data :=
    match data with
    | [b] => .ok b
    | _ => .error ⟨ "unexpected length".toList ⟩
  dfault := 0
  decode_encode _ := rfl

/-- A concrete instantiation of the conversion bounds used by witnesses:
`Source = Proto = Fin 256`, identity conversions, errors in
`ProtobufCodingFailure`. -/
def idConv : ProtoConv (Fin 256) (Fin 256) ProtobufCodingFailure where
  fromSource := id
  tryInto b := .ok b
  fromDecodeError := ProtobufCodingFailure.fromDecodeError

/-- Closed instance of the C1 theorem at the byte 3. -/
theorem protobuf_round_trip_witness :
    Protobuf.deserialize idCodec idConv
        (Protobuf.serialize idCodec idConv (3 : Fin 256)) = .ok 3 :=
  protobuf_round_trip idCodec idConv 3 rfl

/-- C3: `deserialize` decodes first: on every buffer the codec rejects, it
returns `Err` of the codec `DecodeError` wrapped through the `From` instance of `E`
conversion — for `ProtobufCodingFailure`, the `Decode` variant — and the
Proto-to-Source conversion is attempted exactly when decode succeeds, its
result returned as is (so no silently wrong `Source` value is produced). -/
theorem protobuf_deserialize_decode_first {Source Proto : Type}
    (codec : ProstMessage Proto)
    (conv : ProtoConv Source Proto ProtobufCodingFailure)
    (hfrom : conv.fromDecodeError = ProtobufCodingFailure.fromDecodeError)
    (data : List (Fin 256)) :
    (∀ e, codec.decode data = .error e →
      Protobuf.deserialize codec conv data = .error (.Decode e)) ∧
    (∀ m, codec.decode data = .ok m →
      Protobuf.deserialize codec conv data = conv.tryInto m) := by
  constructor
  · intro e he
    unfold Protobuf.deserialize
    rw [he, hfrom]
    rfl
  · intro m hm
    unfold Protobuf.deserialize
    rw [hm]

/-- Closed instance of the C3 theorem: the empty buffer fails to decode and
deserialize wraps the codec error in the `Decode` variant. -/
theorem protobuf_deserialize_decode_first_witness :
    Protobuf.deserialize idCodec idConv [] =
      .error (.Decode ⟨ "unexpected length".toList ⟩) :=
  (protobuf_deserialize_decode_first idCodec idConv rfl []).1 _ rfl

/-- Modelled from the spec: a `Proto` message with an optional field that
the `Source` type requires (spec sections 4.4 and 7); the concrete `Proto`
types and their `TryInto` conversions live in downstream crates, not in
src/, so a representative pair is modelled here.  The message carries an
optional byte-string field `name`. -/
structure PersonProto where
  name : Option (List (Fin 256))
deriving DecidableEq, Repr

/-- Modelled from the spec: the `Source` type requiring the `name` field. -/
structure Person where
  name : List (Fin 256)
deriving DecidableEq, Repr

/-- Modelled from the spec: the prost codec for `PersonProto`: an absent
field encodes to the empty buffer, a present field to a tag byte followed
by its bytes. -/
def personCodec : ProstMessage PersonProto where
  encode_to_vec p :=
    match p.name with
    | none => []
    | some bs => 0 :: bs
  decode data :=
    match data with
    | [] => .ok ⟨none⟩
    | _ :: rest => .ok ⟨some rest⟩
  dfault := ⟨none⟩
  decode_encode m := by
    rcases m with ⟨_ | bs⟩ <;> rfl

/-- Modelled from the spec: the `TryInto<Person>` conversion, which rejects
a structurally valid message whose required `name` field is absent with
`OptionalFieldAbsent`, per spec section 7. -/
def PersonProto.try_into (p : PersonProto) : Except ProtobufCodingFailure Person :=
  match p.name with
  | none => .error (.OptionalFieldAbsent ("name".toList) ("Person".toList))
  | some n => .ok ⟨n⟩

/-- The conversion bundle for the `Person` binding. -/
def personConv : ProtoConv Person PersonProto ProtobufCodingFailure where
  fromSource s := ⟨some s.name⟩
  tryInto := PersonProto.try_into
  fromDecodeError := ProtobufCodingFailure.fromDecodeError

/-- C7: for every byte buffer that decodes to a structurally valid message
whose required field is absent, `deserialize` returns `Err` with the
`OptionalFieldAbsent` variant — never `Ok` of a default or zeroed `Source`
value. -/
theorem protobuf_missing_field (data : List (Fin 256)) (p : PersonProto)
    (hdec : personCodec.decode data = .ok p) (habs : p.name = none) :
    Protobuf.deserialize personCodec personConv data =
        .error (.OptionalFieldAbsent ("name".toList) ("Person".toList)) ∧
    ∀ v, Protobuf.deserialize personCodec personConv data ≠ .ok v := by
  have h : Protobuf.deserialize personCodec personConv data =
      .error (.OptionalFieldAbsent ("name".toList) ("Person".toList)) := by
    unfold Protobuf.deserialize
    rw [hdec]
    show PersonProto.try_into p = _
    unfold PersonProto.try_into
    rw [habs]
  refine ⟨h, ?_⟩
  intro v hv
  rw [h] at hv
  exact Except.noConfusion hv

/-- Closed instance of the C7 theorem at the empty buffer, which decodes to
the message with the `name` field absent. -/
theorem protobuf_missing_field_witness :
    Protobuf.deserialize personCodec personConv [] =
      .error (.OptionalFieldAbsent ("name".toList) ("Person".toList)) :=
  (protobuf_missing_field [] ⟨none⟩ rfl rfl).1

/-- C10: the protobuf code paths of the crate itself never produce the `Encode`
variant: `serialize` returns bytes directly with no `Result`, and every
error `deserialize` returns is either the `Decode` wrapping of a codec
decode error or a value produced by the caller-supplied Proto-to-Source
conversion — never an `Encode` synthesized by the crate. -/
theorem protobuf_encode_variant_unreachable {Source Proto : Type}
    (codec : ProstMessage Proto)
    (conv : ProtoConv Source Proto ProtobufCodingFailure)
    (hfrom : conv.fromDecodeError = ProtobufCodingFailure.fromDecodeError) :
    (∀ V, ∃ bytes, Protobuf.serialize codec conv V = bytes) ∧
    (∀ data c, Protobuf.deserialize codec conv data = .error c →
      (∃ e, c = .Decode e) ∨ (∃ m, conv.tryInto m = .error c)) := by
  constructor
  · intro V
    exact ⟨_, rfl⟩
  · intro data c h
    unfold Protobuf.deserialize at h
    rcases hd : codec.decode data with e | m
    · rw [hd, hfrom] at h
      left
      injection h with h1
      exact ⟨e, h1.symm⟩
    · rw [hd] at h
      right
      exact ⟨m, h⟩

/-- Closed instance of the C10 theorem at the empty buffer under the
concrete witness codec: the resulting error is the `Decode` wrapping. -/
theorem protobuf_encode_variant_unreachable_witness :
    (∃ e, (ProtobufCodingFailure.Decode ⟨ "unexpected length".toList ⟩) = .Decode e) ∨
    (∃ m, idConv.tryInto m =
      .error (.Decode ⟨ "unexpected length".toList ⟩)) :=
  (protobuf_encode_variant_unreachable idCodec idConv rfl).2 [] _ rfl

end SerdeMux
